import Mathlib

/-!
Verification of the text pipeline of `src/transcriber.py` (py-scriber):
subtitle parsing (`SubtitleParser.parse_vtt` / `parse_srt`), adjacent
caption dedup (`AIProcessor._remove_duplicates`), heuristic paragraph
segmentation (`AIProcessor._basic_paragraph_breaks`), the assistant-backed
segmentation control flow (`AIProcessor.detect_paragraph_breaks` /
`_chunked_paragraph_detection`), and Markdown rendering
(`MarkdownFormatter.format`).

Python strings are modelled as lists of characters (`Str`).  Character
classes (`\s`, `\w`, `\d`, `str.isupper`, `str.lower`) are modelled at
ASCII precision, which is exact for ASCII text; every definition is used
consistently on both sides of each theorem, so the theorems do not depend
on the non-ASCII fringe of those classes.
-/

namespace Transcriber

/-- Python `str` is modelled as a list of characters. -/
abbrev Str := List Char

/-- Python whitespace (the regex class `\s` and the default `str.strip`
set), at ASCII precision: space, tab, newline, carriage return, vertical
tab and form feed. -/
def isPySpace (c : Char) : Bool :=
  c == ' ' || c == '\t' || c == '\n' || c == '\r' || c == '\x0b' || c == '\x0c'

/-- Negation of `isPySpace`; used for word scanning. -/
def notSpace (c : Char) : Bool := !isPySpace c

/-- Python regex `\w` (word character) at ASCII precision:
letters, digits and underscore. -/
def isWordChar (c : Char) : Bool := c.isAlphanum || c == '_'

/-- Remove trailing Python whitespace from a string. -/
def dropTrailing (l : Str) : Str := (l.reverse.dropWhile isPySpace).reverse

/-- Python `str.strip()`: remove leading and trailing whitespace. -/
def pyStrip (l : Str) : Str := dropTrailing (l.dropWhile isPySpace)

/-- Python `re.sub(r'\s+', ' ', s)`: collapse every maximal run of
whitespace characters into a single space.  (The single space for a run
is emitted at the run's last character; the result is the same.) -/
def collapseWs : Str → Str
  | [] => []
  | [c] => if isPySpace c then [' '] else [c]
  | c :: d :: cs =>
    if isPySpace c then
      (if isPySpace d then collapseWs (d :: cs) else ' ' :: collapseWs (d :: cs))
    else c :: collapseWs (d :: cs)

/-- Python `sep.join(parts)`. -/
def interJ (sep : Str) : List Str → Str
  | [] => []
  | [x] => x
  | x :: y :: r => x ++ sep ++ interJ sep (y :: r)

/-- `re.sub(r'\s+', ' ', s).strip()`: the whitespace normalization the
code applies to every flushed paragraph. -/
def normText (l : Str) : Str := pyStrip (collapseWs l)

/-- Python `s.split('\n')`: split on each newline, keeping empty pieces
(the result always has one more piece than there are newlines). -/
def splitNl : Str → List Str
  | [] => [[]]
  | c :: cs =>
    if c == '\n' then [] :: splitNl cs
    else
      match splitNl cs with
      | [] => [[c]]
      | l :: ls => (c :: l) :: ls

/-- Split a string at every whitespace character, keeping empty pieces. -/
def splitWsRaw : Str → List Str
  | [] => [[]]
  | c :: cs =>
    if isPySpace c then [] :: splitWsRaw cs
    else
      match splitWsRaw cs with
      | [] => [[c]]
      | w :: ws => (c :: w) :: ws

/-- The whitespace-separated words of a string, in order, without empty
pieces.  Two strings are equal modulo whitespace normalization exactly
when they have the same `words`. -/
def words (l : Str) : List Str := (splitWsRaw l).filter (fun w => !w.isEmpty)

/-- State machine for Python `re.sub(r'<[^>]+>', '', s)` (strip inline
markup tags).  The first argument buffers, reversed, the characters seen
since an unmatched `<`; a tag needs at least one non-`>` character before
the closing `>`, and an unclosed `<` is kept verbatim. -/
def stripTagsAux : Option Str → Str → Str
  | none, [] => []
  | some buf, [] => '<' :: buf.reverse
  | none, x :: xs =>
    if x == '<' then stripTagsAux (some []) xs
    else x :: stripTagsAux none xs
  | some buf, x :: xs =>
    if x == '>' then
      (if buf.isEmpty then '<' :: '>' :: stripTagsAux none xs
       else stripTagsAux none xs)
    else stripTagsAux (some (x :: buf)) xs

/-- Python `re.sub(r'<[^>]+>', '', s)`. -/
def removeTags (l : Str) : Str := stripTagsAux none l

/-- State machine for Python `re.sub(r'\[.*?\]', '', s)` (and the
parenthesis version): drop each leftmost-starting, shortest span from an
opening delimiter to the next closing delimiter; an opener with no later
closer is kept verbatim. -/
def removeDelimAux (o c : Char) : Option Str → Str → Str
  | none, [] => []
  | some buf, [] => o :: buf.reverse
  | none, x :: xs =>
    if x == o then removeDelimAux o c (some []) xs
    else x :: removeDelimAux o c none xs
  | some buf, x :: xs =>
    if x == c then removeDelimAux o c none xs
    else removeDelimAux o c (some (x :: buf)) xs

/-- Python `re.sub(r'\[.*?\]', '', s)` for `o = '['`, `c = ']'`, and the
parenthesis annotation removal for `o = '('`, `c = ')'`. -/
def removeDelim (o c : Char) (l : Str) : Str := removeDelimAux o c none l

/-- Per cue-text-line processing shared by `parse_vtt` and `parse_srt`
(transcriber.py lines 87-94 and 125-132): strip the line, remove
angle-bracket tags, and unless `keep` remove bracket and parenthesis
annotations. -/
def processCueLine (keep : Bool) (l : Str) : Str :=
  let t := removeTags (pyStrip l)
  if keep then t else removeDelim '(' ')' (removeDelim '[' ']' t)

/-- Consume exactly `n` ASCII digits (`\d{n}`), returning the rest. -/
def chompDigits : Nat → Str → Option Str
  | 0, l => some l
  | _ + 1, [] => none
  | n + 1, c :: cs => if c.isDigit then chompDigits n cs else none

/-- Consume an exact literal character sequence, returning the rest. -/
def chompLit : Str → Str → Option Str
  | [], l => some l
  | _ :: _, [] => none
  | p :: ps, c :: cs => if c == p then chompLit ps cs else none

/-- Consume `\d{2}:\d{2}:\d{2}<msSep>\d{3}` (a subtitle timestamp; VTT
uses `.` before the milliseconds, SRT uses `,`). -/
def chompTime (msSep : Char) (l : Str) : Option Str :=
  ((((((chompDigits 2 l).bind (chompLit [':'])).bind (chompDigits 2)).bind
    (chompLit [':'])).bind (chompDigits 2)).bind (chompLit [msSep])).bind
    (chompDigits 3)

/-- The timestamp-line regexes `VTT_TIMESTAMP_PATTERN` /
`SRT_TIMESTAMP_PATTERN` (transcriber.py lines 59-60): two timestamps
joined by `" --> "`, with arbitrary trailing text allowed. -/
def isTsLine (msSep : Char) (l : Str) : Bool :=
  (((chompTime msSep l).bind (chompLit [' ', '-', '-', '>', ' '])).bind
    (chompTime msSep)).isSome

/-- The literal token `WEBVTT`. -/
def webvttTok : Str := ['W', 'E', 'B', 'V', 'T', 'T']

/-- `VTT_HEADER_PATTERN` (`^WEBVTT.*$`). -/
def isVTTHeaderLine (s : Str) : Bool := webvttTok.isPrefixOf s

/-- `VTT_NOTE_PATTERN` (`^NOTE.*$`). -/
def isNoteLine (s : Str) : Bool := List.isPrefixOf ['N', 'O', 'T', 'E'] s

/-- `SRT_NUMBER_PATTERN` (`^\d+$`): a non-empty all-digit line. -/
def isIntLine (s : Str) : Bool := !s.isEmpty && s.all Char.isDigit

/-- Append the collected cue text lines as one caption, if any line was
collected (`if caption_text: captions.append(' '.join(caption_text).strip())`,
transcriber.py lines 97-98 / 135-136).  `texts` holds the processed lines
in reverse collection order. -/
def emitCue (texts : List Str) : List Str :=
  if texts.isEmpty then [] else [pyStrip (interJ [' '] texts.reverse)]

/-- The `parse_vtt` line loop (transcriber.py lines 72-101).  The first
argument is `none` outside a cue and `some texts` while collecting a
cue's text lines (reversed).  Collection of a cue ends at a blank line,
a timestamp line, or the end of input, exactly as the inner `while` at
line 86. -/
def vttAux (keep : Bool) : Option (List Str) → List Str → List Str
  | none, [] => []
  | some texts, [] => emitCue texts
  | none, l :: rest =>
    let s := pyStrip l
    if s.isEmpty || isVTTHeaderLine s || isNoteLine s then vttAux keep none rest
    else if isTsLine '.' s then vttAux keep (some []) rest
    else vttAux keep none rest
  | some texts, l :: rest =>
    let s := pyStrip l
    if !s.isEmpty && !isTsLine '.' s then
      vttAux keep (some (processCueLine keep l :: texts)) rest
    else
      emitCue texts ++
        (if s.isEmpty || isVTTHeaderLine s || isNoteLine s then vttAux keep none rest
         else if isTsLine '.' s then vttAux keep (some []) rest
         else vttAux keep none rest)

/-- `SubtitleParser.parse_vtt` (transcriber.py lines 66-102). -/
def parseVTT (content : Str) (keep : Bool) : List Str :=
  vttAux keep none (splitNl content)

/-- The `parse_srt` line loop (transcriber.py lines 110-139): like the
VTT loop but skipping pure-integer sequence-number lines, matching the
comma timestamp grammar, and ending cue text at a blank line, a
pure-integer line, or the end of input (line 124). -/
def srtAux (keep : Bool) : Option (List Str) → List Str → List Str
  | none, [] => []
  | some texts, [] => emitCue texts
  | none, l :: rest =>
    let s := pyStrip l
    if s.isEmpty || isIntLine s then srtAux keep none rest
    else if isTsLine ',' s then srtAux keep (some []) rest
    else srtAux keep none rest
  | some texts, l :: rest =>
    let s := pyStrip l
    if !s.isEmpty && !isIntLine s then
      srtAux keep (some (processCueLine keep l :: texts)) rest
    else
      emitCue texts ++
        (if s.isEmpty || isIntLine s then srtAux keep none rest
         else if isTsLine ',' s then srtAux keep (some []) rest
         else srtAux keep none rest)

/-- `SubtitleParser.parse_srt` (transcriber.py lines 104-140). -/
def parseSRT (content : Str) (keep : Bool) : List Str :=
  srtAux keep none (splitNl content)

/-- Does `pat` occur as a contiguous subsequence of the string? -/
def hasSub (pat : Str) : Str → Bool
  | [] => pat.isPrefixOf []
  | c :: cs => pat.isPrefixOf (c :: cs) || hasSub pat cs

/-- `SubtitleParser.parse` (transcriber.py lines 142-148): dispatch on
whether `WEBVTT` occurs in the first 100 characters. -/
def parseSubtitles (content : Str) (keep : Bool) : List Str :=
  if hasSub webvttTok (content.take 100) then parseVTT content keep
  else parseSRT content keep

/-- The normalization of `_remove_duplicates` (transcriber.py line 320):
`re.sub(r'[^\w\s]', '', caption.lower())`, i.e. lowercase, then keep only
word characters (letters, digits, underscore) and whitespace. -/
def pyNormalize (s : Str) : Str :=
  (s.map Char.toLower).filter (fun c => isWordChar c || isPySpace c)

/-- The loop of `AIProcessor._remove_duplicates` (transcriber.py lines
311-329), with the preceding kept caption (pre-strip, exactly as the code
stores it) as explicit state.  A caption is dropped as a duplicate only
when a previous caption exists, is truthy, its normalization is truthy
(non-empty), and the normalizations agree. -/
def removeDuplicatesAux : Option Str → List Str → List Str
  | _, [] => []
  | prev, c :: cs =>
    if pyStrip c = [] then removeDuplicatesAux prev cs
    else
      match prev with
      | some p =>
        if p ≠ [] ∧ pyNormalize p ≠ [] ∧ pyNormalize c = pyNormalize p then
          removeDuplicatesAux (some p) cs
        else pyStrip c :: removeDuplicatesAux (some c) cs
      | none => pyStrip c :: removeDuplicatesAux (some c) cs

/-- `AIProcessor._remove_duplicates` (transcriber.py lines 311-329). -/
def removeDuplicates (captions : List Str) : List Str :=
  removeDuplicatesAux none captions

/-- The normalization exactly as the claim words it: lowercased, with
every character that is not alphanumeric or whitespace removed (note:
no underscore, unlike the code's `\w`). -/
def claimNorm (s : Str) : Str :=
  (s.map Char.toLower).filter (fun c => c.isAlphanum || isPySpace c)

/-- The dedupe walk exactly as claim C2 words it: a caption whose
`claimNorm` equals the preceding kept caption's `claimNorm` is dropped;
otherwise it is kept trimmed and the trimmed caption becomes the new
comparison state; blank captions are dropped without a state update. -/
def claimCleanAux : Option Str → List Str → List Str
  | _, [] => []
  | prev, c :: cs =>
    if pyStrip c = [] then claimCleanAux prev cs
    else
      match prev with
      | some p =>
        if claimNorm c = claimNorm p then claimCleanAux (some p) cs
        else pyStrip c :: claimCleanAux (some (pyStrip c)) cs
      | none => pyStrip c :: claimCleanAux (some (pyStrip c)) cs

/-- The dedupe pass described by claim C2, taken literally. -/
def claimClean (captions : List Str) : List Str := claimCleanAux none captions

/-- The dedupe walk as amended: normalization keeps underscores (Python
`\w`), a caption is dropped only when the preceding kept caption's
normalized form is non-empty and equal to its own, and the preceding kept
caption is remembered as read (untrimmed). -/
def amendedCleanAux : Option Str → List Str → List Str
  | _, [] => []
  | prev, c :: cs =>
    if pyStrip c = [] then amendedCleanAux prev cs
    else
      match prev with
      | some p =>
        if pyNormalize p ≠ [] ∧ pyNormalize c = pyNormalize p then
          amendedCleanAux (some p) cs
        else pyStrip c :: amendedCleanAux (some c) cs
      | none => pyStrip c :: amendedCleanAux (some c) cs

/-- The dedupe pass described by amended claim C2. -/
def amendedClean (captions : List Str) : List Str := amendedCleanAux none captions

/-- `caption and caption[-1] in '.!?'` (transcriber.py line 296). -/
def endsSentence (c : Str) : Bool :=
  match c.getLast? with
  | some ch => ch == '.' || ch == '!' || ch == '?'
  | none => false

/-- `captions[i + 1]` is non-empty and `captions[i + 1][0].isupper()`
(transcriber.py lines 299-300), with `isupper` at ASCII precision. -/
def startsUpper (c : Str) : Bool :=
  match c with
  | ch :: _ => ch.isUpper
  | [] => false

/-- Flush a paragraph buffer: join with spaces, collapse whitespace,
strip (transcriber.py lines 303-304). -/
def flushText (buf : List Str) : Str := normText (interJ [' '] buf)

/-- The loop of `AIProcessor._basic_paragraph_breaks` (transcriber.py
lines 288-309), with the running buffer explicit: flush when the current
caption ends a sentence and the next caption starts with an uppercase
letter, or at the last caption; an empty flush is discarded but still
resets the buffer. -/
def basicAux : List Str → List Str → List Str
  | _, [] => []
  | buf, [c] =>
    let t := flushText (buf ++ [c])
    if t.isEmpty then [] else [t]
  | buf, c :: c2 :: rest =>
    if endsSentence c && startsUpper c2 then
      let t := flushText (buf ++ [c])
      (if t.isEmpty then [] else [t]) ++ basicAux [] (c2 :: rest)
    else basicAux (buf ++ [c]) (c2 :: rest)

/-- `AIProcessor._basic_paragraph_breaks` (transcriber.py lines 288-309). -/
def basicParagraphBreaks (captions : List Str) : List Str := basicAux [] captions

/-- The paragraph-break condition of the heuristic segmenter, as the
spec words it: the current caption's last character is `.`, `!` or `?`
and the next caption's first character is uppercase. -/
def breakAfter (c c2 : Str) : Bool := endsSentence c && startsUpper c2

/-- Split a caption sequence into the maximal groups the spec describes:
a group closes after a caption at which `breakAfter` holds of it and its
successor, or at the last caption. -/
def splitCaptions : List Str → List (List Str)
  | [] => []
  | [c] => [[c]]
  | c :: c2 :: rest =>
    if breakAfter c c2 then [c] :: splitCaptions (c2 :: rest)
    else
      match splitCaptions (c2 :: rest) with
      | [] => [[c]]
      | g :: gs => (c :: g) :: gs

/-- Flush one group into a paragraph, discarding an empty flush. -/
def flushGroup (g : List Str) : Option Str :=
  let t := flushText g
  if t.isEmpty then none else some t

/-- The heuristic segmentation as the spec words it: the flushes of the
break-delimited groups, with empty flushes discarded. -/
def heuristicParagraphs (captions : List Str) : List Str :=
  (splitCaptions captions).filterMap flushGroup

/-- The literal break marker `<BREAK>`. -/
def brkMark : Str := ['<', 'B', 'R', 'E', 'A', 'K', '>']

/-- Find the first occurrence of `<BREAK>`, returning the text before it
and the text after it. -/
def findMarker : Str → Option (Str × Str)
  | [] => none
  | c :: cs =>
    if brkMark.isPrefixOf (c :: cs) then some ([], (c :: cs).drop 7)
    else
      match findMarker cs with
      | some (pre, post) => some (c :: pre, post)
      | none => none

/-- Fuelled splitting on `<BREAK>`; each found marker removes seven
characters, so fuel `l.length` always suffices. -/
def splitBreakFuel : Nat → Str → List Str
  | 0, l => [l]
  | n + 1, l =>
    match findMarker l with
    | none => [l]
    | some (pre, post) => pre :: splitBreakFuel n post

/-- Python `s.split('<BREAK>')`. -/
def splitBreak (l : Str) : List Str := splitBreakFuel l.length l

/-- `[p.strip() for p in response.strip().split('<BREAK>') if p.strip()]`
(transcriber.py lines 261-262). -/
def respParagraphs (r : Str) : List Str :=
  ((splitBreak (pyStrip r)).map pyStrip).filter (fun p => !p.isEmpty)

/-- `sum(len(p) for p in paragraphs)`. -/
def sumLens (ps : List Str) : Nat := (ps.map List.length).sum

/-- Chunking state machine: the counter is the remaining capacity of the
current chunk, `acc` the current chunk reversed. -/
def chunks100Aux : Nat → List Str → List Str → List (List Str)
  | _, acc, [] => if acc.isEmpty then [] else [acc.reverse]
  | Nat.succ n, acc, c :: cs => chunks100Aux n (c :: acc) cs
  | 0, acc, c :: cs => acc.reverse :: chunks100Aux 99 [c] cs

/-- `[captions[i:i + 100] for i in range(0, len(captions), 100)]`
(transcriber.py lines 277-278): consecutive chunks of 100 captions. -/
def chunks100 (captions : List Str) : List (List Str) :=
  chunks100Aux 100 [] captions

/-- Run `f` over a list, succeeding with the list of results only when
every call succeeds (the chunk loop of `_chunked_paragraph_detection`;
a diverging chunk makes the whole loop diverge). -/
def optionMapList (f : List Str → Option (List Str)) :
    List (List Str) → Option (List (List Str))
  | [] => some []
  | x :: xs =>
    match f x, optionMapList f xs with
    | some y, some ys => some (y :: ys)
    | _, _ => none

/-- One unfolding of `AIProcessor.detect_paragraph_breaks` (transcriber.py
lines 217-273), parameterised by the recursive call used for chunks.
`avail` is `self.ollama_available`; `resp` is the outcome of the single
`ollama.generate` call: `Except.error` for any raised failure, `Except.ok r`
for a returned response text `r`.  The 70% gate `sum < len(full_text) * 0.7`
is modelled exactly as `10 * sum < 7 * len`: for `len ≤ 8000` the IEEE
double computation `len * 0.7` agrees with the rational comparison, since
the rounding error is below the gap `1/10` between the integer `sum` and
the threshold. -/
def detectStep (recur : List Str → Option (List Str)) (avail : Bool)
    (resp : Except Unit Str) (captions : List Str) : Option (List Str) :=
  if avail = false ∨ captions.length < 5 then some (basicParagraphBreaks captions)
  else
    let blob := interJ [' '] captions
    if 8000 < blob.length then
      Option.map List.flatten (optionMapList recur (chunks100 captions))
    else
      match resp with
      | Except.error _ => some (basicParagraphBreaks captions)
      | Except.ok r =>
        let ps := respParagraphs r
        if ps.length < 2 ∨ 10 * sumLens ps < 7 * blob.length then
          some (basicParagraphBreaks captions)
        else some ps

/-- `AIProcessor.detect_paragraph_breaks` with explicit recursion depth:
`none` means the Python code recurses deeper than `fuel` (in particular,
`none` for every fuel means the code never returns). -/
def detectFuel : Nat → Bool → Except Unit Str → List Str → Option (List Str)
  | 0 => fun _ _ _ => none
  | Nat.succ fuel => fun avail resp => detectStep (detectFuel fuel avail resp) avail resp

/-- The antecedent of claim C5: the single assistant call either raised
a failure, or its response splits into fewer than 2 paragraphs, or the
paragraphs retain less than 70% of the blob's characters. -/
def fallbackTrigger (resp : Except Unit Str) (blob : Str) : Prop :=
  match resp with
  | Except.error _ => True
  | Except.ok r =>
    (respParagraphs r).length < 2 ∨ 10 * sumLens (respParagraphs r) < 7 * blob.length

/-- The header line `## Executive Summary`. -/
def execHeader : Str := ("## Executive Summary").data

/-- The horizontal rule `---`. -/
def hruleStr : Str := ['-', '-', '-']

/-- The header line `## Full Transcript`. -/
def transcriptHeader : Str := ("## Full Transcript").data

/-- The `markdown_lines` list built by `MarkdownFormatter.format`
(transcriber.py lines 393-414): each appended item is followed by an
empty line; the title line appears when the title is truthy, the summary
block when the summary is truthy. -/
def mdLines (title summary : Str) (paragraphs : List Str) : List Str :=
  (if title.isEmpty then [] else [['#', ' '] ++ title, []]) ++
  (if summary.isEmpty then []
   else [execHeader, [], summary, [], hruleStr, [], transcriptHeader, []]) ++
  paragraphs.flatMap (fun p => [p, []])

/-- `MarkdownFormatter.format` on AI-processed data (transcriber.py lines
389-416): empty paragraph list gives the empty string, otherwise the
lines joined with newlines and stripped. -/
def markdownFormat (title summary : Str) (paragraphs : List Str) : Str :=
  if paragraphs.isEmpty then []
  else pyStrip (interJ ['\n'] (mdLines title summary paragraphs))

/-- The document-shape sections described by the spec: the title line,
then (when a summary is present) the summary block's four sections, then
the paragraphs. -/
def mdSections (title summary : Str) (paragraphs : List Str) : List Str :=
  (if title.isEmpty then [] else [['#', ' '] ++ title]) ++
  (if summary.isEmpty then [] else [execHeader, summary, hruleStr, transcriptHeader]) ++
  paragraphs

/-! ## Whitespace-normalization algebra

`normText` (collapse runs of whitespace, then strip) is shown to equal
the space-join of `words`; this is the engine behind the paragraph
partition and idempotence claims. -/

theorem splitWsRaw_ne_nil (l : Str) : splitWsRaw l ≠ [] := by
  match l with
  | [] => simp [splitWsRaw]
  | c :: cs =>
    rw [splitWsRaw]
    by_cases h : isPySpace c
    · simp [h]
    · simp only [h, Bool.false_eq_true, if_false]
      cases hs : splitWsRaw cs <;> simp

theorem splitWsRaw_cons_sp (c : Char) (cs : Str) (h : isPySpace c) :
    splitWsRaw (c :: cs) = [] :: splitWsRaw cs := by
  rw [splitWsRaw]; simp [h]

theorem splitWsRaw_cons_ns (c : Char) (cs : Str) (h : ¬ isPySpace c)
    (w : Str) (ws : List Str) (hcs : splitWsRaw cs = w :: ws) :
    splitWsRaw (c :: cs) = (c :: w) :: ws := by
  rw [splitWsRaw]; simp [h, hcs]

theorem words_nil : words [] = [] := by simp [words, splitWsRaw]

theorem words_cons_sp (c : Char) (cs : Str) (h : isPySpace c) :
    words (c :: cs) = words cs := by
  simp [words, splitWsRaw_cons_sp c cs h]

theorem splitWsRaw_ns_prefix (w : Str) (hw : ∀ c ∈ w, notSpace c) (r : Str) :
    splitWsRaw (w ++ r) =
      (w ++ (splitWsRaw r).headI) :: (splitWsRaw r).tail := by
  induction w with
  | nil =>
    simp only [List.nil_append]
    cases h : splitWsRaw r with
    | nil => exact absurd h (splitWsRaw_ne_nil r)
    | cons x xs => simp [h]
  | cons c cs ih =>
    have hc : ¬ isPySpace c := by
      have := hw c (by simp)
      simpa [notSpace] using this
    have ih' := ih (fun d hd => hw d (by simp [hd]))
    simp only [List.cons_append]
    rw [splitWsRaw_cons_ns c (cs ++ r) hc _ _ ih']

theorem splitWsRaw_headI_spaceish (r : Str)
    (h : r = [] ∨ ∃ d ds, r = d :: ds ∧ isPySpace d) :
    (splitWsRaw r).headI = [] ∧
      (splitWsRaw r).tail.filter (fun w => !w.isEmpty) = words r := by
  rcases h with h | ⟨d, ds, rfl, hd⟩
  · subst h; simp [splitWsRaw, words]
  · rw [splitWsRaw_cons_sp d ds hd]
    simp [words, splitWsRaw_cons_sp d ds hd]

theorem dropWhile_spec_head {p : Char → Bool} :
    ∀ (l : Str) (c : Char) (cs : Str), l.dropWhile p = c :: cs → p c = false := by
  intro l
  induction l with
  | nil => intro c cs h; simp [List.dropWhile] at h
  | cons a as ih =>
    intro c cs h
    rw [List.dropWhile_cons] at h
    by_cases ha : p a
    · simp [ha] at h; exact ih c cs h
    · simp [ha] at h
      rcases h with ⟨rfl, -⟩
      simpa using ha

theorem words_cons_ns (c : Char) (cs : Str) (h : ¬ isPySpace c) :
    words (c :: cs) =
      (c :: cs.takeWhile notSpace) :: words (cs.dropWhile notSpace) := by
  have hsplit : (c :: cs) = (c :: cs.takeWhile notSpace) ++ cs.dropWhile notSpace := by
    simp [List.takeWhile_append_dropWhile]
  have hall : ∀ d ∈ (c :: cs.takeWhile notSpace), notSpace d := by
    intro d hd
    rcases List.mem_cons.mp hd with rfl | hd
    · simp [notSpace, h]
    · exact List.mem_takeWhile_imp hd
  have hdw : cs.dropWhile notSpace = [] ∨
      ∃ d ds, cs.dropWhile notSpace = d :: ds ∧ isPySpace d := by
    cases hd : cs.dropWhile notSpace with
    | nil => exact Or.inl rfl
    | cons d ds =>
      refine Or.inr ⟨d, ds, rfl, ?_⟩
      have := dropWhile_spec_head cs d ds hd
      simpa [notSpace] using this
  obtain ⟨h1, h2⟩ := splitWsRaw_headI_spaceish (cs.dropWhile notSpace) hdw
  rw [words, hsplit, splitWsRaw_ns_prefix _ hall, h1]
  simp only [List.append_nil, List.filter_cons]
  have : (!(c :: cs.takeWhile notSpace).isEmpty) = true := by simp
  rw [this]
  simp [h2]

theorem len_dropWhile_le (p : Char → Bool) (l : Str) :
    (l.dropWhile p).length ≤ l.length := by
  induction l with
  | nil => simp [List.dropWhile]
  | cons c cs ih =>
    rw [List.dropWhile_cons]
    by_cases h : p c
    · simp only [h, if_true]
      exact Nat.le_succ_of_le ih
    · simp [h]

theorem dropWhile_of_all_false (p : Char → Bool) (l : Str)
    (h : ∀ c ∈ l, p c = false) : l.dropWhile p = l := by
  induction l with
  | nil => rfl
  | cons c cs ih =>
    rw [List.dropWhile_cons, if_neg (by simp [h c (by simp)])]

theorem takeWhile_of_all (p : Char → Bool) (l : Str)
    (h : ∀ c ∈ l, p c = true) : l.takeWhile p = l := by
  induction l with
  | nil => rfl
  | cons c cs ih =>
    rw [List.takeWhile_cons, if_pos (h c (by simp))]
    rw [ih (fun d hd => h d (by simp [hd]))]

theorem dropWhile_idem (p : Char → Bool) (l : Str) :
    (l.dropWhile p).dropWhile p = l.dropWhile p := by
  cases h : l.dropWhile p with
  | nil => rfl
  | cons c cs =>
    rw [List.dropWhile_cons, if_neg (by simp [dropWhile_spec_head l c cs h])]

theorem words_dropWhile_sp (l : Str) :
    words (l.dropWhile isPySpace) = words l := by
  induction l with
  | nil => rfl
  | cons c cs ih =>
    rw [List.dropWhile_cons]
    by_cases h : isPySpace c
    · rw [if_pos h, ih, words_cons_sp c cs h]
    · rw [if_neg h]

theorem splitWsRaw_append_sp (b : Str) (m : Char) (hm : isPySpace m) :
    ∀ a : Str, splitWsRaw (a ++ m :: b) = splitWsRaw a ++ splitWsRaw b := by
  intro a
  induction a with
  | nil =>
    rw [List.nil_append, splitWsRaw_cons_sp m b hm]
    rfl
  | cons d a' ih =>
    by_cases hd : isPySpace d
    · rw [List.cons_append, splitWsRaw_cons_sp d _ hd, ih,
        splitWsRaw_cons_sp d a' hd, List.cons_append]
    · cases ha : splitWsRaw a' with
      | nil => exact absurd ha (splitWsRaw_ne_nil a')
      | cons h t =>
        have ih' : splitWsRaw (a' ++ m :: b) = h :: (t ++ splitWsRaw b) := by
          rw [ih, ha]; rfl
        rw [List.cons_append, splitWsRaw_cons_ns d _ hd h (t ++ splitWsRaw b) ih',
          splitWsRaw_cons_ns d a' hd h t ha]
        rfl

theorem words_append_sp (a b : Str) (m : Char) (hm : isPySpace m) :
    words (a ++ m :: b) = words a ++ words b := by
  simp [words, splitWsRaw_append_sp b m hm a, List.filter_append]

theorem splitWsRaw_all_ns (l : Str) :
    ∀ w ∈ splitWsRaw l, ∀ c ∈ w, notSpace c := by
  induction l with
  | nil => intro w hw; simp [splitWsRaw] at hw; simp [hw]
  | cons c cs ih =>
    by_cases h : isPySpace c
    · rw [splitWsRaw_cons_sp c cs h]
      intro w hw
      rcases List.mem_cons.mp hw with rfl | hw
      · simp
      · exact ih w hw
    · cases hcs : splitWsRaw cs with
      | nil => exact absurd hcs (splitWsRaw_ne_nil cs)
      | cons x xs =>
        rw [splitWsRaw_cons_ns c cs h x xs hcs]
        intro w hw d hd
        rcases List.mem_cons.mp hw with rfl | hw
        · rcases List.mem_cons.mp hd with rfl | hd
          · simp [notSpace, h]
          · exact ih x (by simp [hcs]) d hd
        · exact ih w (by simp [hcs, hw]) d hd

theorem words_mem_ne_nil (l : Str) : ∀ w ∈ words l, w ≠ [] := by
  intro w hw
  have := List.of_mem_filter hw
  simpa using this

theorem words_mem_all_ns (l : Str) : ∀ w ∈ words l, ∀ c ∈ w, notSpace c :=
  fun w hw => splitWsRaw_all_ns l w (List.mem_of_mem_filter hw)

theorem words_single (w : Str) (h0 : w ≠ []) (hns : ∀ c ∈ w, notSpace c) :
    words w = [w] := by
  match w with
  | [] => exact absurd rfl h0
  | c :: cs =>
    have hc : ¬ isPySpace c := by
      have := hns c (by simp)
      simpa [notSpace] using this
    rw [words_cons_ns c cs hc,
      takeWhile_of_all notSpace cs (fun d hd => hns d (by simp [hd])),
      List.dropWhile_eq_nil_iff.mpr (fun d hd => hns d (by simp [hd])), words_nil]

theorem words_interJ (ws : List Str)
    (h : ∀ w ∈ ws, w ≠ [] ∧ ∀ c ∈ w, notSpace c) :
    words (interJ [' '] ws) = ws := by
  match ws with
  | [] => simp [interJ, words_nil]
  | [w] =>
    rw [interJ]
    exact words_single w (h w (by simp)).1 (h w (by simp)).2
  | w :: w2 :: r =>
    rw [interJ]
    have : w ++ [' '] ++ interJ [' '] (w2 :: r) = w ++ ' ' :: interJ [' '] (w2 :: r) := by
      simp
    rw [this, words_append_sp w _ ' ' (by simp [isPySpace]),
      words_interJ (w2 :: r) (fun x hx => h x (by simp [hx])),
      words_single w (h w (by simp)).1 (h w (by simp)).2]
    rfl

theorem interJ_ne_nil (ws : List Str) (h0 : ws ≠ []) (h : ∀ w ∈ ws, w ≠ []) :
    interJ [' '] ws ≠ [] := by
  match ws with
  | [] => exact absurd rfl h0
  | [w] => rw [interJ]; exact h w (by simp)
  | w :: w2 :: r =>
    rw [interJ]
    intro hc
    rcases List.append_eq_nil.mp hc with ⟨h1, -⟩
    rcases List.append_eq_nil.mp h1 with ⟨-, h2⟩
    simp at h2

theorem words_interJ_flatten (l : List Str) :
    words (interJ [' '] l) = (l.map words).flatten := by
  match l with
  | [] => simp [interJ, words_nil]
  | [x] => simp [interJ]
  | x :: y :: r =>
    rw [interJ]
    have : x ++ [' '] ++ interJ [' '] (y :: r) = x ++ ' ' :: interJ [' '] (y :: r) := by
      simp
    rw [this, words_append_sp x _ ' ' (by simp [isPySpace]),
      words_interJ_flatten (y :: r)]
    simp

theorem collapse_cons_ns (c : Char) (cs : Str) (h : ¬ isPySpace c) :
    collapseWs (c :: cs) = c :: collapseWs cs := by
  cases cs with
  | nil => simp [collapseWs, h]
  | cons d ds => rw [collapseWs]; simp [h]

theorem collapse_cons_sp : ∀ (cs : Str) (c : Char), isPySpace c →
    collapseWs (c :: cs) = ' ' :: collapseWs (cs.dropWhile isPySpace) := by
  intro cs
  induction cs with
  | nil => intro c h; simp [collapseWs, h, List.dropWhile]
  | cons d ds ih =>
    intro c h
    rw [collapseWs]
    by_cases hd : isPySpace d
    · rw [if_pos h, if_pos hd, ih d hd, List.dropWhile_cons, if_pos hd]
    · rw [if_pos h, if_neg hd, List.dropWhile_cons, if_neg hd]

theorem collapse_take_drop (l : Str) :
    collapseWs l = l.takeWhile notSpace ++ collapseWs (l.dropWhile notSpace) := by
  induction l with
  | nil => simp [collapseWs]
  | cons c cs ih =>
    by_cases h : isPySpace c
    · have : notSpace c = false := by simp [notSpace, h]
      rw [List.takeWhile_cons, List.dropWhile_cons]
      simp [this]
    · have hns : notSpace c = true := by simp [notSpace, h]
      rw [collapse_cons_ns c cs h, List.takeWhile_cons, List.dropWhile_cons]
      simp only [hns, if_true]
      rw [ih, List.cons_append]

theorem dropTrailing_append_allsp (x b : Str) (hb : ∀ c ∈ b, isPySpace c) :
    dropTrailing (x ++ b) = dropTrailing x := by
  unfold dropTrailing
  rw [List.reverse_append, List.dropWhile_append]
  have hb' : b.reverse.dropWhile isPySpace = [] :=
    List.dropWhile_eq_nil_iff.mpr (fun y hy => hb y (List.mem_reverse.mp hy))
  simp [hb']

theorem dropTrailing_ns_prefix (a x : Str) (ha : ∀ c ∈ a, notSpace c) :
    dropTrailing (a ++ x) = a ++ dropTrailing x := by
  unfold dropTrailing
  rw [List.reverse_append, List.dropWhile_append]
  have ha' : a.reverse.dropWhile isPySpace = a.reverse :=
    dropWhile_of_all_false isPySpace a.reverse (fun c hc => by
      have := ha c (List.mem_reverse.mp hc)
      simpa [notSpace] using this)
  by_cases hx : (x.reverse.dropWhile isPySpace).isEmpty
  · rw [if_pos hx, ha', List.reverse_reverse]
    rw [List.isEmpty_iff.mp hx]
    simp
  · rw [if_neg hx, List.reverse_append, List.reverse_reverse]

theorem dropTrailing_cons (a : Char) (x : Str) :
    dropTrailing (a :: x) =
      if dropTrailing x = [] then (if isPySpace a then [] else [a])
      else a :: dropTrailing x := by
  unfold dropTrailing
  rw [show (a :: x).reverse = x.reverse ++ [a] by simp, List.dropWhile_append]
  by_cases hx : (x.reverse.dropWhile isPySpace).isEmpty
  · have hx' : (x.reverse.dropWhile isPySpace).reverse = [] := by
      rw [List.isEmpty_iff.mp hx]; rfl
    rw [if_pos hx, if_pos hx']
    by_cases ha : isPySpace a <;> simp [List.dropWhile, ha]
  · have hx' : (x.reverse.dropWhile isPySpace).reverse ≠ [] := by
      intro hc
      rw [List.isEmpty_iff] at hx
      exact hx (by simpa using hc)
    rw [if_neg hx, if_neg hx', List.reverse_append]
    simp

theorem dropTrailing_idem (l : Str) :
    dropTrailing (dropTrailing l) = dropTrailing l := by
  unfold dropTrailing
  rw [List.reverse_reverse, dropWhile_idem]

theorem pyStrip_cons_sp (c : Char) (x : Str) (h : isPySpace c) :
    pyStrip (c :: x) = pyStrip x := by
  simp [pyStrip, List.dropWhile_cons, h]

theorem pyStrip_cons_ns (c : Char) (x : Str) (h : ¬ isPySpace c) :
    pyStrip (c :: x) = dropTrailing (c :: x) := by
  simp [pyStrip, List.dropWhile_cons, h]

theorem pyStrip_append_allsp (x b : Str) (hb : ∀ c ∈ b, isPySpace c) :
    pyStrip (x ++ b) = pyStrip x := by
  unfold pyStrip
  rw [List.dropWhile_append]
  by_cases hx : (x.dropWhile isPySpace).isEmpty
  · rw [if_pos hx, List.isEmpty_iff.mp hx,
      List.dropWhile_eq_nil_iff.mpr (fun y hy => hb y hy)]
  · rw [if_neg hx]
    exact dropTrailing_append_allsp _ b hb

theorem pyStrip_dropTrailing (m : Str)
    (hm : m = [] ∨ ∃ c cs, m = c :: cs ∧ ¬ isPySpace c) :
    pyStrip (dropTrailing m) = dropTrailing m := by
  rcases hm with rfl | ⟨c, cs, rfl, hc⟩
  · simp [dropTrailing, pyStrip, List.dropWhile]
  · rw [dropTrailing_cons]
    by_cases h : dropTrailing cs = []
    · rw [if_pos h, if_neg hc]
      simp [pyStrip, List.dropWhile, hc, dropTrailing]
    · rw [if_neg h, pyStrip_cons_ns c _ hc, dropTrailing_cons, dropTrailing_idem,
        if_neg h]

theorem pyStrip_idem (l : Str) : pyStrip (pyStrip l) = pyStrip l := by
  have hm : l.dropWhile isPySpace = [] ∨
      ∃ c cs, l.dropWhile isPySpace = c :: cs ∧ ¬ isPySpace c := by
    cases h : l.dropWhile isPySpace with
    | nil => exact Or.inl rfl
    | cons c cs =>
      exact Or.inr ⟨c, cs, rfl, by simp [dropWhile_spec_head l c cs h]⟩
  calc pyStrip (pyStrip l) = pyStrip (dropTrailing (l.dropWhile isPySpace)) := rfl
    _ = dropTrailing (l.dropWhile isPySpace) := pyStrip_dropTrailing _ hm
    _ = pyStrip l := rfl

theorem collapse_dropWhile_head (z : Str) :
    collapseWs (z.dropWhile isPySpace) = [] ∨
      ∃ c cs, collapseWs (z.dropWhile isPySpace) = c :: cs ∧ ¬ isPySpace c := by
  cases h : z.dropWhile isPySpace with
  | nil => simp [collapseWs]
  | cons c cs =>
    have hc : ¬ isPySpace c := by simp [dropWhile_spec_head z c cs h]
    rw [collapse_cons_ns c cs hc]
    exact Or.inr ⟨c, collapseWs cs, rfl, hc⟩

theorem normText_words_aux : ∀ (n : Nat) (l : Str), l.length ≤ n →
    normText l = interJ [' '] (words l) := by
  intro n
  induction n with
  | zero =>
    intro l hl
    have : l = [] := List.length_eq_zero.mp (Nat.le_zero.mp hl)
    subst this
    simp [normText, collapseWs, pyStrip, dropTrailing, List.dropWhile, words_nil,
      interJ]
  | succ n ih =>
    intro l hl
    match l with
    | [] =>
      simp [normText, collapseWs, pyStrip, dropTrailing, List.dropWhile, words_nil,
        interJ]
    | c :: cs =>
      have hcs : cs.length ≤ n := by
        simpa using Nat.succ_le_succ_iff.mp (by simpa using hl)
      by_cases h : isPySpace c
      · rw [normText, collapse_cons_sp cs c h, pyStrip_cons_sp _ _ (by decide)]
        have := ih (cs.dropWhile isPySpace) (le_trans (len_dropWhile_le _ _) hcs)
        rw [show pyStrip (collapseWs (cs.dropWhile isPySpace))
            = normText (cs.dropWhile isPySpace) from rfl, this,
          words_dropWhile_sp cs, words_cons_sp c cs h]
      · -- non-space head: peel the leading word
        have hwall : ∀ d ∈ (c :: cs.takeWhile notSpace), notSpace d := by
          intro d hd
          rcases List.mem_cons.mp hd with rfl | hd
          · simp [notSpace, h]
          · exact List.mem_takeWhile_imp hd
        have hstep : normText (c :: cs) =
            (c :: cs.takeWhile notSpace) ++ dropTrailing (collapseWs (cs.dropWhile notSpace)) := by
          rw [normText, collapse_cons_ns c cs h, collapse_take_drop cs,
            pyStrip_cons_ns c _ h,
            show (c :: (cs.takeWhile notSpace ++ collapseWs (cs.dropWhile notSpace)))
              = (c :: cs.takeWhile notSpace) ++ collapseWs (cs.dropWhile notSpace) from rfl,
            dropTrailing_ns_prefix _ _ hwall]
        cases hr : cs.dropWhile notSpace with
        | nil =>
          rw [hstep, hr]
          rw [words_cons_ns c cs h, hr, words_nil]
          simp [collapseWs, dropTrailing, List.dropWhile, interJ]
        | cons d ds =>
          have hd : isPySpace d := by
            have := dropWhile_spec_head cs d ds hr
            simpa [notSpace] using this
          have hcoll : collapseWs (d :: ds) = ' ' :: collapseWs (ds.dropWhile isPySpace) :=
            collapse_cons_sp ds d hd
          have hyhead := collapse_dropWhile_head ds
          have hy : dropTrailing (collapseWs (ds.dropWhile isPySpace))
              = pyStrip (collapseWs (ds.dropWhile isPySpace)) := by
            rcases hyhead with hy0 | ⟨e, es, hy0, he⟩
            · rw [hy0]; rfl
            · rw [hy0, pyStrip_cons_ns e es he]
          have hlen : (ds.dropWhile isPySpace).length ≤ n := by
            have h1 : (d :: ds).length ≤ cs.length := by
              rw [← hr]; exact len_dropWhile_le _ _
            have h2 : ds.length < cs.length := lt_of_lt_of_le (by simp) h1
            exact le_trans (len_dropWhile_le _ _) (le_trans (Nat.le_of_lt h2) hcs)
          have hihy := ih (ds.dropWhile isPySpace) hlen
          have hwordsr : words (ds.dropWhile isPySpace) = words (d :: ds) := by
            rw [words_dropWhile_sp ds, words_cons_sp d ds hd]
          rw [hstep, hr, hcoll, dropTrailing_cons]
          rw [show pyStrip (collapseWs (ds.dropWhile isPySpace))
              = normText (ds.dropWhile isPySpace) from rfl] at hy
          rw [hy, hihy, hwordsr] at *
          rw [words_cons_ns c cs h, hr]
          by_cases hwr : words (d :: ds) = []
          · rw [hwr] at *
            rw [if_pos (by simp [interJ]), if_pos (by decide), hwr]
            simp [interJ]
          · have hne : interJ [' '] (words (d :: ds)) ≠ [] :=
              interJ_ne_nil _ hwr (words_mem_ne_nil _)
            rw [if_neg hne]
            cases hw : words (d :: ds) with
            | nil => exact absurd hw hwr
            | cons w wsr =>
              rw [interJ]
              simp

theorem normText_eq_words (l : Str) : normText l = interJ [' '] (words l) :=
  normText_words_aux l.length l (le_refl _)

theorem words_normText (l : Str) : words (normText l) = words l := by
  rw [normText_eq_words]
  exact words_interJ (words l)
    (fun w hw => ⟨words_mem_ne_nil l w hw, words_mem_all_ns l w hw⟩)

theorem normText_idem (l : Str) : normText (normText l) = normText l := by
  rw [normText_eq_words (normText l), words_normText, ← normText_eq_words]

/-! ## The heuristic segmenter and its group decomposition -/

theorem filterMap_cons_toList (f : List Str → Option Str) (a : List Str)
    (l : List (List Str)) :
    List.filterMap f (a :: l) = (f a).toList ++ List.filterMap f l := by
  cases h : f a <;> simp [List.filterMap_cons, h]

theorem splitCaptions_ne_nil : ∀ cs : List Str, cs ≠ [] → splitCaptions cs ≠ []
  | [], h => absurd rfl h
  | [c], _ => by simp [splitCaptions]
  | c :: c2 :: rest, _ => by
    rw [splitCaptions]
    by_cases hb : breakAfter c c2 = true
    · simp [hb]
    · simp only [hb, Bool.false_eq_true, if_false]
      cases hs : splitCaptions (c2 :: rest) <;> simp

theorem splitCaptions_flatten : ∀ cs : List Str, (splitCaptions cs).flatten = cs
  | [] => rfl
  | [c] => by simp [splitCaptions]
  | c :: c2 :: rest => by
    rw [splitCaptions]
    by_cases hb : breakAfter c c2 = true
    · rw [if_pos hb]
      simp [splitCaptions_flatten (c2 :: rest)]
    · rw [if_neg hb]
      cases hs : splitCaptions (c2 :: rest) with
      | nil => exact absurd hs (splitCaptions_ne_nil _ (by simp))
      | cons g gs =>
        have hfl := splitCaptions_flatten (c2 :: rest)
        rw [hs] at hfl
        simp only [List.flatten_cons] at hfl ⊢
        rw [List.cons_append, hfl]

theorem basicAux_spec : ∀ (cs buf g : List Str) (gs : List (List Str)),
    splitCaptions cs = g :: gs →
    basicAux buf cs = (flushGroup (buf ++ g)).toList ++ gs.filterMap flushGroup
  | [], buf, g, gs => by intro h; simp [splitCaptions] at h
  | [c], buf, g, gs => by
    intro h
    rw [splitCaptions] at h
    injection h with h1 h2
    subst h1; subst h2
    by_cases ht : (flushText (buf ++ [c])).isEmpty
    · simp [basicAux, flushGroup, ht]
    · simp [basicAux, flushGroup, ht]
  | c :: c2 :: rest, buf, g, gs => by
    intro h
    rw [splitCaptions] at h
    by_cases hb : breakAfter c c2 = true
    · rw [if_pos hb] at h
      injection h with h1 h2
      subst h1; subst h2
      cases hs : splitCaptions (c2 :: rest) with
      | nil => exact absurd hs (splitCaptions_ne_nil _ (by simp))
      | cons g2 gs2 =>
        have ihr := basicAux_spec (c2 :: rest) [] g2 gs2 hs
        rw [show ([] : List Str) ++ g2 = g2 from rfl] at ihr
        have hb' : (endsSentence c && startsUpper c2) = true := hb
        rw [basicAux, if_pos hb', ihr, filterMap_cons_toList]
        by_cases ht : (flushText (buf ++ [c])).isEmpty
        · simp [flushGroup, ht]
        · simp [flushGroup, ht]
    · rw [if_neg hb] at h
      cases hs : splitCaptions (c2 :: rest) with
      | nil => exact absurd hs (splitCaptions_ne_nil _ (by simp))
      | cons g2 gs2 =>
        rw [hs] at h
        injection h with h1 h2
        subst h1; subst h2
        have ihr := basicAux_spec (c2 :: rest) (buf ++ [c]) g2 gs2 hs
        have hb' : ¬ ((endsSentence c && startsUpper c2) = true) := hb
        rw [basicAux, if_neg hb', ihr, List.append_assoc]
        rfl

theorem basic_eq_spec (cs : List Str) :
    basicParagraphBreaks cs = heuristicParagraphs cs := by
  match cs with
  | [] => rfl
  | c :: cs' =>
    cases hs : splitCaptions (c :: cs') with
    | nil => exact absurd hs (splitCaptions_ne_nil _ (by simp))
    | cons g gs =>
      rw [basicParagraphBreaks, basicAux_spec (c :: cs') [] g gs hs,
        show ([] : List Str) ++ g = g from rfl, heuristicParagraphs, hs,
        filterMap_cons_toList]

theorem flushGroup_eq_some (g : List Str) (p : Str) (h : flushGroup g = some p) :
    p = flushText g ∧ p ≠ [] := by
  rw [flushGroup] at h
  by_cases ht : (flushText g).isEmpty
  · simp [ht] at h
  · simp only [ht, Bool.false_eq_true, if_false, Option.some.injEq] at h
    subst h
    exact ⟨rfl, by simpa using ht⟩

theorem flushText_single (p : Str) : flushText [p] = normText p := by
  rw [flushText, interJ]

theorem normText_flushText (g : List Str) :
    normText (flushText g) = flushText g := normText_idem _

theorem basic_single (p : Str) (hi : normText p = p) (h0 : p ≠ []) :
    basicParagraphBreaks [p] = [p] := by
  rw [basicParagraphBreaks, basicAux,
    show ([] : List Str) ++ [p] = [p] from rfl, flushText_single, hi]
  simp [h0]

theorem basic_mem_idem (cs : List Str) (p : Str)
    (hp : p ∈ basicParagraphBreaks cs) : basicParagraphBreaks [p] = [p] := by
  rw [basic_eq_spec] at hp
  obtain ⟨g, -, hg⟩ := List.mem_filterMap.mp hp
  obtain ⟨rfl, h0⟩ := flushGroup_eq_some g _ hg
  exact basic_single _ (normText_flushText g) h0

/-! ## Caption dedup: code vs amended description, and idempotence on
trimmed input -/

theorem flatten_words_filterMap : ∀ gs : List (List Str),
    ((gs.filterMap flushGroup).map words).flatten
      = (gs.map (fun g => words (interJ [' '] g))).flatten
  | [] => rfl
  | g :: gs => by
    rw [filterMap_cons_toList]
    cases hg : flushGroup g with
    | none =>
      have ht : flushText g = [] := by
        rw [flushGroup] at hg
        by_cases h : (flushText g).isEmpty
        · exact List.isEmpty_iff.mp h
        · simp [h] at hg
      have : words (interJ [' '] g) = [] := by
        rw [← words_normText (interJ [' '] g)]
        rw [show normText (interJ [' '] g) = flushText g from rfl, ht, words_nil]
      simp [this, flatten_words_filterMap gs]
    | some p =>
      obtain ⟨rfl, -⟩ := flushGroup_eq_some g p hg
      have : words (flushText g) = words (interJ [' '] g) := words_normText _
      simp [this, flatten_words_filterMap gs]

theorem flatten_groups_words : ∀ gs : List (List Str),
    (gs.map (fun g => words (interJ [' '] g))).flatten
      = ((gs.flatten).map words).flatten
  | [] => rfl
  | g :: gs => by
    simp only [List.map_cons, List.flatten_cons, words_interJ_flatten g,
      List.map_append, List.flatten_append]
    rw [flatten_groups_words gs]

theorem basic_partition (cs : List Str) :
    normText (interJ [' '] (basicParagraphBreaks cs)) = normText (interJ [' '] cs) := by
  rw [normText_eq_words, normText_eq_words, basic_eq_spec, heuristicParagraphs,
    words_interJ_flatten, words_interJ_flatten, flatten_words_filterMap,
    flatten_groups_words, splitCaptions_flatten]

theorem removeDup_amended_aux : ∀ (cs : List Str) (prev : Option Str),
    (∀ p, prev = some p → pyStrip p ≠ []) →
    removeDuplicatesAux prev cs = amendedCleanAux prev cs
  | [], _, _ => rfl
  | c :: cs, none, _ => by
    rw [removeDuplicatesAux, amendedCleanAux]
    by_cases hc : pyStrip c = []
    · rw [if_pos hc, if_pos hc]
      exact removeDup_amended_aux cs none (by simp)
    · rw [if_neg hc, if_neg hc]
      rw [removeDup_amended_aux cs (some c) (by rintro p ⟨rfl⟩; exact hc)]
  | c :: cs, some p, hp => by
    rw [removeDuplicatesAux, amendedCleanAux]
    by_cases hc : pyStrip c = []
    · rw [if_pos hc, if_pos hc]
      exact removeDup_amended_aux cs (some p) hp
    · rw [if_neg hc, if_neg hc]
      have hpne : p ≠ [] := by
        intro h
        exact hp p rfl (by rw [h]; rfl)
      by_cases hd : pyNormalize p ≠ [] ∧ pyNormalize c = pyNormalize p
      · rw [if_pos ⟨hpne, hd.1, hd.2⟩, if_pos hd]
        exact removeDup_amended_aux cs (some p) hp
      · rw [if_neg (fun hx => hd ⟨hx.2.1, hx.2.2⟩), if_neg hd]
        rw [removeDup_amended_aux cs (some c) (by rintro q ⟨rfl⟩; exact hc)]

theorem removeDup_eq_amended (captions : List Str) :
    removeDuplicates captions = amendedClean captions :=
  removeDup_amended_aux captions none (by simp)

theorem removeDupAux_idem : ∀ (cs : List Str) (prev : Option Str),
    (∀ c ∈ cs, pyStrip c = c) →
    removeDuplicatesAux prev (removeDuplicatesAux prev cs) = removeDuplicatesAux prev cs
  | [], _, _ => rfl
  | c :: cs, none, h => by
    have hcc : pyStrip c = c := h c (by simp)
    have hrest : ∀ x ∈ cs, pyStrip x = x := fun x hx => h x (by simp [hx])
    rw [removeDuplicatesAux]
    by_cases hc : pyStrip c = []
    · rw [if_pos hc]
      exact removeDupAux_idem cs none hrest
    · rw [if_neg hc, hcc]
      rw [removeDuplicatesAux, hcc]
      rw [if_neg (show ¬ c = [] by rw [← hcc]; exact hc)]
      rw [removeDupAux_idem cs (some c) hrest]
  | c :: cs, some p, h => by
    have hcc : pyStrip c = c := h c (by simp)
    have hrest : ∀ x ∈ cs, pyStrip x = x := fun x hx => h x (by simp [hx])
    rw [removeDuplicatesAux]
    by_cases hc : pyStrip c = []
    · rw [if_pos hc]
      exact removeDupAux_idem cs (some p) hrest
    · rw [if_neg hc, hcc]
      by_cases hd : p ≠ [] ∧ pyNormalize p ≠ [] ∧ pyNormalize c = pyNormalize p
      · rw [if_pos hd]
        exact removeDupAux_idem cs (some p) hrest
      · rw [if_neg hd, removeDuplicatesAux, hcc]
        rw [if_neg (show ¬ c = [] by rw [← hcc]; exact hc), if_neg hd]
        rw [removeDupAux_idem cs (some c) hrest]

theorem removeDup_idem_trimmed (captions : List Str)
    (h : ∀ c ∈ captions, pyStrip c = c) :
    removeDuplicates (removeDuplicates captions) = removeDuplicates captions :=
  removeDupAux_idem captions none h

/-! ## Parser outputs are trimmed -/

theorem emitCue_mem (texts : List Str) (c : Str) (hc : c ∈ emitCue texts) :
    pyStrip c = c := by
  rw [emitCue] at hc
  by_cases h : texts.isEmpty
  · simp [h] at hc
  · simp only [h, Bool.false_eq_true, if_false, List.mem_singleton] at hc
    subst hc
    exact pyStrip_idem _

theorem vttAux_mem_strip (keep : Bool) :
    ∀ (ls : List Str) (mode : Option (List Str)) (c : Str),
      c ∈ vttAux keep mode ls → pyStrip c = c
  | [], none, c => by intro hc; simp [vttAux] at hc
  | [], some texts, c => by
    intro hc
    rw [vttAux] at hc
    exact emitCue_mem texts c hc
  | l :: rest, none, c => by
    intro hc
    simp only [vttAux] at hc
    by_cases h1 : ((pyStrip l).isEmpty || isVTTHeaderLine (pyStrip l)
        || isNoteLine (pyStrip l)) = true
    · rw [if_pos h1] at hc
      exact vttAux_mem_strip keep rest none c hc
    · rw [if_neg h1] at hc
      by_cases h2 : isTsLine '.' (pyStrip l) = true
      · rw [if_pos h2] at hc
        exact vttAux_mem_strip keep rest (some []) c hc
      · rw [if_neg h2] at hc
        exact vttAux_mem_strip keep rest none c hc
  | l :: rest, some texts, c => by
    intro hc
    simp only [vttAux] at hc
    by_cases h0 : (!(pyStrip l).isEmpty && !isTsLine '.' (pyStrip l)) = true
    · rw [if_pos h0] at hc
      exact vttAux_mem_strip keep rest (some (processCueLine keep l :: texts)) c hc
    · rw [if_neg h0] at hc
      rcases List.mem_append.mp hc with hc | hc
      · exact emitCue_mem texts c hc
      · by_cases h1 : ((pyStrip l).isEmpty || isVTTHeaderLine (pyStrip l)
            || isNoteLine (pyStrip l)) = true
        · rw [if_pos h1] at hc
          exact vttAux_mem_strip keep rest none c hc
        · rw [if_neg h1] at hc
          by_cases h2 : isTsLine '.' (pyStrip l) = true
          · rw [if_pos h2] at hc
            exact vttAux_mem_strip keep rest (some []) c hc
          · rw [if_neg h2] at hc
            exact vttAux_mem_strip keep rest none c hc

theorem srtAux_mem_strip (keep : Bool) :
    ∀ (ls : List Str) (mode : Option (List Str)) (c : Str),
      c ∈ srtAux keep mode ls → pyStrip c = c
  | [], none, c => by intro hc; simp [srtAux] at hc
  | [], some texts, c => by
    intro hc
    rw [srtAux] at hc
    exact emitCue_mem texts c hc
  | l :: rest, none, c => by
    intro hc
    simp only [srtAux] at hc
    by_cases h1 : ((pyStrip l).isEmpty || isIntLine (pyStrip l)) = true
    · rw [if_pos h1] at hc
      exact srtAux_mem_strip keep rest none c hc
    · rw [if_neg h1] at hc
      by_cases h2 : isTsLine ',' (pyStrip l) = true
      · rw [if_pos h2] at hc
        exact srtAux_mem_strip keep rest (some []) c hc
      · rw [if_neg h2] at hc
        exact srtAux_mem_strip keep rest none c hc
  | l :: rest, some texts, c => by
    intro hc
    simp only [srtAux] at hc
    by_cases h0 : (!(pyStrip l).isEmpty && !isIntLine (pyStrip l)) = true
    · rw [if_pos h0] at hc
      exact srtAux_mem_strip keep rest (some (processCueLine keep l :: texts)) c hc
    · rw [if_neg h0] at hc
      rcases List.mem_append.mp hc with hc | hc
      · exact emitCue_mem texts c hc
      · by_cases h1 : ((pyStrip l).isEmpty || isIntLine (pyStrip l)) = true
        · rw [if_pos h1] at hc
          exact srtAux_mem_strip keep rest none c hc
        · rw [if_neg h1] at hc
          by_cases h2 : isTsLine ',' (pyStrip l) = true
          · rw [if_pos h2] at hc
            exact srtAux_mem_strip keep rest (some []) c hc
          · rw [if_neg h2] at hc
            exact srtAux_mem_strip keep rest none c hc

theorem parseVTT_mem_strip (content : Str) (keep : Bool) (c : Str)
    (hc : c ∈ parseVTT content keep) : pyStrip c = c :=
  vttAux_mem_strip keep (splitNl content) none c hc

theorem parseSRT_mem_strip (content : Str) (keep : Bool) (c : Str)
    (hc : c ∈ parseSRT content keep) : pyStrip c = c :=
  srtAux_mem_strip keep (splitNl content) none c hc

/-! ## Assistant-path segmentation: fallback and the chunking recursion -/

theorem interJ_length_replicate (s : Str) : ∀ n : Nat,
    (interJ [' '] (List.replicate (n + 1) s)).length = (n + 1) * s.length + n
  | 0 => by simp [interJ, List.replicate]
  | n + 1 => by
    rw [List.replicate_succ, List.replicate_succ, interJ, ← List.replicate_succ,
      List.length_append, List.length_append, interJ_length_replicate s n]
    simp only [List.length_singleton]
    ring

theorem basicAux_replicate (s : Str) (hs : endsSentence s = false) :
    ∀ (n : Nat) (buf : List Str),
      basicAux buf (List.replicate (n + 1) s) =
        (if (flushText (buf ++ List.replicate (n + 1) s)).isEmpty then []
         else [flushText (buf ++ List.replicate (n + 1) s)])
  | 0, buf => by
    rw [List.replicate_succ, List.replicate, basicAux]
  | n + 1, buf => by
    rw [List.replicate_succ, List.replicate_succ, basicAux,
      if_neg (by simp [hs]), ← List.replicate_succ,
      basicAux_replicate s hs n (buf ++ [s]), List.append_assoc,
      List.singleton_append, ← List.replicate_succ]

theorem basic_replicate (s : Str) (hs : endsSentence s = false) (h0 : s ≠ [])
    (hns : ∀ c ∈ s, notSpace c) (n : Nat) :
    basicParagraphBreaks (List.replicate (n + 1) s) =
      [interJ [' '] (List.replicate (n + 1) s)] := by
  rw [basicParagraphBreaks, basicAux_replicate s hs n [], List.nil_append]
  have hflush : flushText (List.replicate (n + 1) s)
      = interJ [' '] (List.replicate (n + 1) s) := by
    rw [flushText, normText_eq_words, words_interJ]
    intro w hw
    rw [List.eq_of_mem_replicate hw]
    exact ⟨h0, hns⟩
  have hne : interJ [' '] (List.replicate (n + 1) s) ≠ [] :=
    interJ_ne_nil _ (by simp) (fun w hw => (List.eq_of_mem_replicate hw) ▸ h0)
  rw [hflush, if_neg (by simpa using hne)]

theorem detect_diverges : ∀ (fuel : Nat) (resp : Except Unit Str),
    detectFuel fuel true resp (List.replicate 5 (List.replicate 2000 'a')) = none
  | 0, resp => rfl
  | fuel + 1, resp => by
    have hlen : (interJ [' ']
        (List.replicate 5 (List.replicate 2000 'a'))).length = 10004 := by
      rw [show (5 : Nat) = 4 + 1 from rfl, interJ_length_replicate,
        List.length_replicate]
    have hch : chunks100 (List.replicate 5 (List.replicate 2000 'a'))
        = [List.replicate 5 (List.replicate 2000 'a')] := rfl
    have hc1 : ¬(true = false ∨
        (List.replicate 5 (List.replicate 2000 'a')).length < 5) := by
      rw [List.length_replicate]
      rintro (h | h)
      · simp at h
      · omega
    simp only [detectFuel, detectStep]
    rw [if_neg hc1, if_pos (by rw [hlen]; norm_num),
      hch, optionMapList, detect_diverges fuel resp]
    rfl

theorem detect_fallback (fuel : Nat) (avail : Bool) (resp : Except Unit Str)
    (captions : List Str) (h5 : 5 ≤ captions.length)
    (hblob : (interJ [' '] captions).length ≤ 8000)
    (htrig : fallbackTrigger resp (interJ [' '] captions)) :
    detectFuel (fuel + 1) avail resp captions = some (basicParagraphBreaks captions) := by
  simp only [detectFuel, detectStep]
  by_cases ha : avail = false
  · rw [if_pos (Or.inl ha)]
  · rw [if_neg (by
      rintro (h | h)
      · exact ha h
      · exact Nat.not_lt.mpr h5 h)]
    rw [if_neg (Nat.not_lt.mpr hblob)]
    cases resp with
    | error e => rfl
    | ok r =>
      simp only [fallbackTrigger] at htrig
      show (if (respParagraphs r).length < 2 ∨
            10 * sumLens (respParagraphs r) < 7 * (interJ [' '] captions).length then
          some (basicParagraphBreaks captions)
        else some (respParagraphs r)) = some (basicParagraphBreaks captions)
      rw [if_pos htrig]

theorem detectFuel_one_step (fuel : Nat) (avail : Bool) (resp : Except Unit Str) :
    detectFuel (fuel + 1) avail resp = detectStep (detectFuel fuel avail resp) avail resp :=
  rfl

theorem capA_endsSentence : endsSentence (List.replicate 79 'a') = false := by decide

theorem capA_ne_nil : (List.replicate 79 'a' : Str) ≠ [] := by simp

theorem capA_ns : ∀ c ∈ (List.replicate 79 'a' : Str), notSpace c := by
  intro c hc
  rw [List.eq_of_mem_replicate hc]
  decide

theorem detect_chunk1 (fuel : Nat) :
    detectFuel (fuel + 1) true (Except.ok ['x'])
        (List.replicate 100 (List.replicate 79 'a')) =
      some (basicParagraphBreaks (List.replicate 100 (List.replicate 79 'a'))) := by
  apply detect_fallback fuel
  · simp
  · rw [show (100 : Nat) = 99 + 1 from rfl, interJ_length_replicate,
      List.length_replicate]
    norm_num
  · simp only [fallbackTrigger]
    left
    rw [show respParagraphs ['x'] = [['x']] from by decide]
    norm_num

theorem detect_chunk2 (fuel : Nat) :
    detectFuel (fuel + 1) true (Except.ok ['x']) [List.replicate 79 'a'] =
      some (basicParagraphBreaks [List.replicate 79 'a']) := by
  simp only [detectFuel, detectStep]
  rw [if_pos (Or.inr (by simp))]

theorem detect_chunked_value (fuel : Nat) :
    detectFuel (fuel + 2) true (Except.ok ['x'])
        (List.replicate 101 (List.replicate 79 'a')) =
      some (basicParagraphBreaks (List.replicate 100 (List.replicate 79 'a')) ++
        basicParagraphBreaks [List.replicate 79 'a']) := by
  have hch : chunks100 (List.replicate 101 (List.replicate 79 'a'))
      = [List.replicate 100 (List.replicate 79 'a'), [List.replicate 79 'a']] := rfl
  have hlen : (interJ [' ']
      (List.replicate 101 (List.replicate 79 'a'))).length = 8079 := by
    rw [show (101 : Nat) = 100 + 1 from rfl, interJ_length_replicate,
      List.length_replicate]
  have hc1 : ¬(true = false ∨
      (List.replicate 101 (List.replicate 79 'a')).length < 5) := by
    rw [List.length_replicate]
    rintro (h | h)
    · simp at h
    · omega
  rw [show fuel + 2 = (fuel + 1) + 1 from rfl, detectFuel_one_step]
  simp only [detectStep]
  rw [if_neg hc1, if_pos (by rw [hlen]; norm_num), hch]
  rw [optionMapList, optionMapList, optionMapList, detect_chunk1 fuel,
    detect_chunk2 fuel]
  simp

/-! ## Markdown document shape -/

theorem mdLines_flatMap (t s : Str) (ps : List Str) :
    mdLines t s ps = (mdSections t s ps).flatMap (fun x => [x, []]) := by
  rw [mdLines, mdSections]
  by_cases ht : t.isEmpty <;> by_cases hs : s.isEmpty <;>
    simp [ht, hs, List.flatMap_append]

theorem interJ_nl_flat : ∀ (x : Str) (sections : List Str),
    interJ ['\n'] ((x :: sections).flatMap (fun s => [s, []])) =
      interJ ['\n', '\n'] (x :: sections) ++ ['\n']
  | x, [] => by simp [interJ]
  | x, y :: r => by
    have ih := interJ_nl_flat y r
    show interJ ['\n'] (x :: [] :: ((y :: r).flatMap (fun s => [s, []]))) =
      interJ ['\n', '\n'] (x :: y :: r) ++ ['\n']
    rw [show ((y :: r).flatMap (fun s => [s, []]))
        = y :: ([] :: r.flatMap (fun s => [s, []])) from rfl]
    rw [interJ, interJ]
    rw [show y :: ([] :: r.flatMap (fun s => [s, []]))
        = (y :: r).flatMap (fun s => [s, []]) from rfl]
    rw [ih]
    rw [show interJ ['\n', '\n'] (x :: y :: r)
        = x ++ ['\n', '\n'] ++ interJ ['\n', '\n'] (y :: r) from rfl]
    simp [List.append_assoc]

theorem mdSections_ne_nil (t s : Str) (p : Str) (ps : List Str) :
    mdSections t s (p :: ps) ≠ [] := by
  rw [mdSections]
  intro h
  rcases List.append_eq_nil.mp h with ⟨-, h2⟩
  exact List.cons_ne_nil p ps h2

theorem markdownFormat_shape (t s : Str) :
    ∀ ps : List Str, ps ≠ [] →
      markdownFormat t s ps = pyStrip (interJ ['\n', '\n'] (mdSections t s ps))
  | [], h => absurd rfl h
  | p :: ps', _ => by
    rw [markdownFormat, if_neg (by simp), mdLines_flatMap]
    cases hms : mdSections t s (p :: ps') with
    | nil => exact absurd hms (mdSections_ne_nil t s p ps')
    | cons x secs =>
      rw [interJ_nl_flat x secs,
        pyStrip_append_allsp _ ['\n'] (by
          intro c hc
          rw [List.mem_singleton.mp hc]
          decide)]

/-! ## Claim theorems -/

/-- Claim C1 counterexample: the VTT cue `[Music]` strips to nothing with
`keepLabels = false`, yet `parse_vtt` still appends one caption — the empty
string.  The claim says such a cue contributes no entry and that the output
never contains an empty string; both parts fail on this input. -/
theorem c1_counterexample :
    parseVTT ("WEBVTT\n\n00:00:00.000 --> 00:00:01.000\n[Music]").data false
      = [[]] := by decide

/-- Claim C1, amended: every caption the parsers emit is whitespace-trimmed,
and a cue with no collected text lines contributes no entry; but a cue whose
text lines strip to only whitespace still contributes exactly one entry,
namely the empty string, so the output can contain empty strings (they are
filtered out by the later cleaning stages, not by the parser). -/
theorem c1_parser_amended :
    (∀ (content : Str) (keep : Bool), ∀ c ∈ parseVTT content keep, pyStrip c = c) ∧
    (∀ (content : Str) (keep : Bool), ∀ c ∈ parseSRT content keep, pyStrip c = c) ∧
    parseVTT ("WEBVTT\n\n00:00:00.000 --> 00:00:01.000\n[Music]").data false
      = [[]] ∧
    parseVTT
      ("WEBVTT\n\n00:00:00.000 --> 00:00:01.000\n\n00:00:01.000 --> 00:00:02.000\nHi").data
      false = [['H', 'i']] :=
  ⟨fun content keep c hc => parseVTT_mem_strip content keep c hc,
    fun content keep c hc => parseSRT_mem_strip content keep c hc,
    by decide, by decide⟩

/-- Claim C1 witness: the amended theorem applied to a concrete parse. -/
theorem c1_parser_amended_witness : pyStrip ['H', 'i'] = ['H', 'i'] :=
  c1_parser_amended.1
    ("WEBVTT\n\n00:00:00.000 --> 00:00:01.000\n\n00:00:01.000 --> 00:00:02.000\nHi").data
    false ['H', 'i'] (by decide)

/-- Claim C2 counterexample: on `["!!!", "???"]` both captions normalize to
the empty string, so the claimed rule (drop when the normalized forms are
equal) would drop the second caption, but the code's falsy-check
`if prev_normalized` skips the comparison when the previous normalized form
is empty and keeps both. -/
theorem c2_counterexample :
    removeDuplicates [("!!!").data, ("???").data]
      = [("!!!").data, ("???").data] ∧
    claimClean [("!!!").data, ("???").data] = [("!!!").data] :=
  ⟨by decide, by decide⟩

/-- Claim C2, amended: the dedupe walk keeps a preceding kept caption and
drops a caption exactly when the preceding kept caption's normalized form
(lowercased; every character that is not a word character — letter, digit
or underscore — or whitespace removed) is non-empty and equals its own;
otherwise the caption is kept trimmed and the untrimmed caption becomes the
new comparison state; blank captions are dropped without a state update.
The claim's concrete example holds as stated. -/
theorem c2_dedupe_amended :
    (∀ captions : List Str, removeDuplicates captions = amendedClean captions) ∧
    removeDuplicates [("Hello there.").data, ("Hello there").data, ("Goodbye.").data]
      = [("Hello there.").data, ("Goodbye.").data] :=
  ⟨removeDup_eq_amended, by decide⟩

/-- Claim C3: the heuristic segmenter flushes its buffer exactly when the
current caption ends with `.`, `!` or `?` and the next caption starts with
an uppercase letter, or at the last caption; flushed paragraphs are
whitespace-collapsed and empty flushes are discarded.  Stated as equality
with the segmentation literally built from those break-delimited groups. -/
theorem c3_heuristic_segmenter (captions : List Str) :
    basicParagraphBreaks captions = heuristicParagraphs captions :=
  basic_eq_spec captions

/-- Claim C4: the paragraphs produced by the heuristic segmenter partition
the caption sequence — the concatenation of the paragraphs equals, modulo
whitespace normalization, the concatenation of the captions. -/
theorem c4_paragraphs_partition (captions : List Str) :
    normText (interJ [' '] (basicParagraphBreaks captions))
      = normText (interJ [' '] captions) :=
  basic_partition captions

/-- Claim C5 counterexample: 101 captions of 79 `a`s make the joined blob
8079 characters long, which exceeds the 8000-character threshold, so the
code chunks the captions; with an assistant response `"x"` (fewer than 2
paragraphs, so every chunk falls back), the final output is the
concatenation of the per-chunk heuristics, which differs from the heuristic
on the whole sequence — the claim's consequent fails although its
antecedent holds. -/
theorem c5_counterexample :
    5 ≤ (List.replicate 101 (List.replicate 79 'a') : List Str).length ∧
    (respParagraphs ['x']).length < 2 ∧
    detectFuel 2 true (Except.ok ['x']) (List.replicate 101 (List.replicate 79 'a')) ≠
      some (basicParagraphBreaks (List.replicate 101 (List.replicate 79 'a'))) := by
  refine ⟨by simp, by decide, ?_⟩
  have e1 := basic_replicate (List.replicate 79 'a') capA_endsSentence capA_ne_nil
    capA_ns 99
  have e2 := basic_replicate (List.replicate 79 'a') capA_endsSentence capA_ne_nil
    capA_ns 0
  have e3 := basic_replicate (List.replicate 79 'a') capA_endsSentence capA_ne_nil
    capA_ns 100
  rw [show (2 : Nat) = 0 + 2 from rfl, detect_chunked_value 0,
    show List.replicate 100 (List.replicate 79 'a')
      = List.replicate (99 + 1) (List.replicate 79 'a') from rfl, e1,
    show ([List.replicate 79 'a'] : List Str)
      = List.replicate (0 + 1) (List.replicate 79 'a') from rfl, e2,
    show List.replicate 101 (List.replicate 79 'a')
      = List.replicate (100 + 1) (List.replicate 79 'a') from rfl, e3]
  intro h
  simp only [Option.some.injEq] at h
  have := congrArg List.length h
  simp at this

/-- Claim C5, amended (restricted to the single-call path, i.e. a joined
blob of at most 8000 characters, which the claim's chunking sibling C6
otherwise takes over): for at least 5 captions, whenever the assistant call
raises a failure, or its response splits into fewer than 2 paragraphs, or
the returned paragraphs hold less than 70% of the blob's characters, the
segmenter returns exactly the heuristic strategy's output, and no failure
escapes. -/
theorem c5_fallback_amended (fuel : Nat) (avail : Bool) (resp : Except Unit Str)
    (captions : List Str) (h5 : 5 ≤ captions.length)
    (hblob : (interJ [' '] captions).length ≤ 8000)
    (htrig : fallbackTrigger resp (interJ [' '] captions)) :
    detectFuel (fuel + 1) avail resp captions
      = some (basicParagraphBreaks captions) :=
  detect_fallback fuel avail resp captions h5 hblob htrig

/-- Claim C5 witness: five short captions and the response `"hello"`
(one paragraph) trigger the fallback. -/
theorem c5_fallback_amended_witness :
    5 ≤ ([("A.").data, ("B.").data, ("C.").data, ("D.").data, ("E.").data] : List Str).length ∧
    (interJ [' ']
      [("A.").data, ("B.").data, ("C.").data, ("D.").data, ("E.").data]).length ≤ 8000 ∧
    fallbackTrigger (Except.ok ("hello").data)
      (interJ [' '] [("A.").data, ("B.").data, ("C.").data, ("D.").data, ("E.").data]) ∧
    detectFuel 1 true (Except.ok ("hello").data)
        [("A.").data, ("B.").data, ("C.").data, ("D.").data, ("E.").data]
      = some (basicParagraphBreaks
          [("A.").data, ("B.").data, ("C.").data, ("D.").data, ("E.").data]) :=
  ⟨by decide, by decide, by exact Or.inl (by decide),
    c5_fallback_amended 0 true (Except.ok ("hello").data)
      [("A.").data, ("B.").data, ("C.").data, ("D.").data, ("E.").data]
      (by decide) (by decide) (by exact Or.inl (by decide))⟩

/-- Claim C6: the chunked assistant segmentation is claimed to terminate
for every caption sequence, but `_chunked_paragraph_detection` splits at
most 100 captions per chunk, so a sequence of at most 100 captions whose
joined text exceeds 8000 characters produces a single chunk equal to the
whole input and `detect_paragraph_breaks` recurses on it unchanged,
forever.  Evaluating the code at 5 captions of 2000 `a`s (blob length
10004): no recursion depth suffices, i.e. the Python code never returns
(it dies with `RecursionError`). -/
theorem c6_chunking_diverges (fuel : Nat) (resp : Except Unit Str) :
    detectFuel fuel true resp (List.replicate 5 (List.replicate 2000 'a')) = none :=
  detect_diverges fuel resp

/-- Claim C7: the heuristic segmenter is idempotent on its own output —
every produced paragraph, re-segmented alone as a one-element sequence,
yields exactly that one paragraph — and segmenting `["Hi.", "There."]`
yields the two paragraphs `["Hi.", "There."]`. -/
theorem c7_heuristic_idempotent :
    (∀ (captions : List Str) (p : Str), p ∈ basicParagraphBreaks captions →
      basicParagraphBreaks [p] = [p]) ∧
    basicParagraphBreaks [("Hi.").data, ("There.").data]
      = [("Hi.").data, ("There.").data] :=
  ⟨fun captions p hp => basic_mem_idem captions p hp, by decide⟩

/-- Claim C7 witness: re-segmenting the first produced paragraph alone. -/
theorem c7_heuristic_idempotent_witness :
    ("Hi.").data ∈ basicParagraphBreaks [("Hi.").data, ("There.").data] ∧
    basicParagraphBreaks [("Hi.").data] = [("Hi.").data] :=
  ⟨by decide,
    c7_heuristic_idempotent.1 [("Hi.").data, ("There.").data] ("Hi.").data (by decide)⟩

/-- Claim C8: for a non-empty paragraph sequence the rendered document is
exactly the sections — the `# title` line when the title is non-empty; the
`## Executive Summary` header, the summary, the `---` rule and the
`## Full Transcript` header when the summary is non-empty; then each
paragraph — joined by one blank line, with trailing whitespace trimmed. -/
theorem c8_markdown_shape (title summary : Str) (paragraphs : List Str)
    (h : paragraphs ≠ []) :
    markdownFormat title summary paragraphs
      = pyStrip (interJ ['\n', '\n'] (mdSections title summary paragraphs)) :=
  markdownFormat_shape title summary paragraphs h

/-- Claim C8 witness: the spec's concrete round-trip shape. -/
theorem c8_markdown_shape_witness :
    ([("A.").data, ("B.").data] : List Str) ≠ [] ∧
    markdownFormat ("T").data ("S").data [("A.").data, ("B.").data]
      = pyStrip (interJ ['\n', '\n']
          (mdSections ("T").data ("S").data [("A.").data, ("B.").data])) :=
  ⟨by decide, c8_markdown_shape ("T").data ("S").data [("A.").data, ("B.").data] (by decide)⟩

/-- Claim C9: rendering an empty paragraph sequence returns the empty
string, for every title and summary. -/
theorem c9_empty_render (title summary : Str) :
    markdownFormat title summary [] = [] := rfl

/-- Claim C10 counterexample: dedupe is not idempotent.  On `[" a", "a"]`
the first pass keeps both captions (the untrimmed `" a"` is the comparison
state, and `norm "a" ≠ norm " a"`), emitting `["a", "a"]`; the second pass
then drops the repeat, so applying dedupe to its own output changes it. -/
theorem c10_counterexample :
    removeDuplicates [(" a").data, ("a").data] = [['a'], ['a']] ∧
    removeDuplicates (removeDuplicates [(" a").data, ("a").data]) = [['a']] :=
  ⟨by decide, by decide⟩

/-- Claim C10, amended: dedupe is idempotent on caption sequences whose
elements are already whitespace-trimmed (in particular on any sequence
whose elements carry no surrounding whitespace; the output of a first
pass over untrimmed input can still lose entries on a second pass). -/
theorem c10_dedupe_idem_amended (captions : List Str)
    (h : ∀ c ∈ captions, pyStrip c = c) :
    removeDuplicates (removeDuplicates captions) = removeDuplicates captions :=
  removeDup_idem_trimmed captions h

/-- Claim C10 witness: the amended idempotence at a concrete trimmed input. -/
theorem c10_dedupe_idem_amended_witness :
    (∀ c ∈ ([("ab").data, ("cd").data] : List Str), pyStrip c = c) ∧
    removeDuplicates (removeDuplicates [("ab").data, ("cd").data])
      = removeDuplicates [("ab").data, ("cd").data] :=
  ⟨by decide, c10_dedupe_idem_amended [("ab").data, ("cd").data] (by decide)⟩

end Transcriber
